import Mathlib

/-!
Verification of the tree component of the sidekick library
(src/sidekick/tree/node.py) against its specification.

Two embeddings are used:

* a heap-based embedding of the mutable object graph (`Heap`, `Obj`, monad
  `M`) for the mutating operations: the `parent` setter, `detach`,
  `discard_child`, the `Children` collection operations and the constructors.
  Objects are identified by their allocation index; Python exceptions are
  modelled by an error component that leaves the heap as it was at the point
  of the raise (Python exceptions do not undo prior mutation).

* a pure inductive tree (`PTree`) for the read-only traversal and query layer
  (`iter_children`, the five traversal orders, `find_all`, `height`,
  `is_leaf`), which only ever reads the children lists of an acyclic tree.

The model covers `Leaf` and `Node` units (the `SExpr` subclass is outside the
claims; in particular every modelled child is a `Leaf` or a `Node`, and
neither is iterable in Python).  Metadata keyword arguments (`__dict__`) play
no role in any claim and are not modelled.
-/

namespace Sidekick

/-- Python values that appear as leaf payloads or as items written into a
children sequence: a plain non-unit value (modelled as an integer) or a
reference to a tree unit living in the heap. -/
inductive PVal where
  | int : Int → PVal
  | ref : Nat → PVal
deriving DecidableEq, Repr

/-- One heap object.  `isNode = true` for an interior `Node`, `false` for a
`Leaf`.  `value` is the `value` attribute (`none` is Python `None`, the class
default on `Node`); `parent` is the `_parent` slot, `children` the
`_children` list (identifiers of heap objects; a `Leaf` has the class
attribute `_children = ()`, which is never mutated, so its list stays `[]`). -/
structure Obj where
  isNode : Bool
  value : Option PVal
  parent : Option Nat
  children : List Nat
deriving DecidableEq, Repr

/-- The object heap: objects are addressed by their allocation index. -/
structure Heap where
  objs : Array Obj
deriving DecidableEq, Repr

def dummyObj : Obj := ⟨false, none, none, []⟩

def Heap.get (h : Heap) (i : Nat) : Obj := h.objs.getD i dummyObj

def Heap.set (h : Heap) (i : Nat) (o : Obj) : Heap := ⟨h.objs.setD i o⟩

def Heap.alloc (h : Heap) (o : Obj) : Nat × Heap := (h.objs.size, ⟨h.objs.push o⟩)

def emptyHeap : Heap := ⟨#[]⟩

/-- The Python exception kinds the modelled code can raise.  `TreeError`
subclasses `ValueError` in the source. -/
inductive Err where
  | typeError
  | valueError
  | treeError
  | attributeError
  | indexError
  | assertionError
deriving DecidableEq, Repr

/-- State-and-exception monad over the heap.  A Python exception propagates
without undoing earlier heap mutation, so the heap is threaded through the
error case as well (unlike `StateT _ (Except _)`, which would drop it). -/
def M (α : Type) : Type := Heap → Except Err α × Heap

instance : Monad M where
  pure a := fun h => (Except.ok a, h)
  bind m f := fun h =>
    match m h with
    | (Except.ok a, h1) => f a h1
    | (Except.error e, h1) => (Except.error e, h1)

def throwE {α : Type} (e : Err) : M α := fun h => (Except.error e, h)

def getH : M Heap := fun h => (Except.ok h, h)

def setH (h1 : Heap) : M Unit := fun _ => (Except.ok (), h1)

def modifyH (f : Heap → Heap) : M Unit := fun h => (Except.ok (), f h)

/-- Python try/except: run the body; on an exception, run the handler on the
heap as it is at the point of the raise. -/
def tryM {α : Type} (body : M α) (handler : Err → M α) : M α := fun h =>
  match body h with
  | (Except.ok a, h1) => (Except.ok a, h1)
  | (Except.error e, h1) => handler e h1

def M.run {α : Type} (m : M α) (h : Heap) : Except Err α × Heap := m h

/-! ### Ancestor chain (node.py lines 179–186, 365–369) -/

/-- Walk of `NodeOrLeaf.iter_ancestors`: follow `_parent` links.  The walk is
fueled; with fuel the heap size it visits the whole chain of any acyclic
heap, since the chain's objects are distinct. -/
def iter_ancestors_from (h : Heap) : Nat → Option Nat → List Nat
  | 0, _ => []
  | _, none => []
  | fuel + 1, some p => p :: iter_ancestors_from h fuel ((h.get p).parent)

/-- Ancestors of unit `i`: its parent, the parent's parent, and so on. -/
def iter_ancestors (h : Heap) (i : Nat) : List Nat :=
  iter_ancestors_from h h.objs.size ((h.get i).parent)

/-- Source `a.is_ancestor_of(b)`: whether `a` occurs on the ancestor chain of
`b` (identity comparison, here equality of heap identifiers). -/
def is_ancestor_of (h : Heap) (a b : Nat) : Bool :=
  (iter_ancestors h b).contains a

/-! ### discard_child and detach (node.py lines 165–174, 493–504) -/

/-- Source `Node.discard_child`.  Its loop is written
`for idx, elem in self._children:` (without `enumerate`), which
tuple-unpacks each child object; a `Leaf` or `Node` is not iterable, so a
nonempty children list raises `TypeError` at the first element, and an empty
list falls through to the for-else clause (`TreeError` when `raises`,
otherwise a silent return). -/
def discard_child (self child : Nat) (raises : Bool) : M Unit := do
  let h ← getH
  match (h.get self).children with
  | [] => if raises then throwE Err.treeError else pure ()
  | _ :: _ =>
    let _ := child
    throwE Err.typeError

/-- Source `NodeOrLeaf.detach`: calls `parent.discard_child(self)` when the
parent link is set, and returns `self`.  It never writes `_parent`. -/
def detach (self : Nat) : M Nat := do
  let h ← getH
  match (h.get self).parent with
  | none => pure self
  | some p => do
    discard_child p self false
    pure self

/-! ### Child coercion (node.py lines 482–488) -/

/-- Source `Node._check_child`.  The test is `isinstance(child, Node)`: a
`Leaf` unit fails it and is wrapped in a fresh `Leaf` whose value is the
child itself, exactly like a plain non-unit value; only `Node` children reach
the identity duplicate check over the owner's current children. -/
def _check_child (owner : Nat) (child : PVal) : M Nat := do
  let h ← getH
  match child with
  | PVal.ref c =>
    if (h.get c).isNode then
      if (h.get owner).children.contains c then throwE Err.valueError
      else pure c
    else
      match h.alloc ⟨false, some child, none, []⟩ with
      | (i, h1) => do
        setH h1
        pure i
  | PVal.int _ =>
    match h.alloc ⟨false, some child, none, []⟩ with
    | (i, h1) => do
      setH h1
      pure i

/-! ### The Children collection (node.py lines 573–612)

Integer indices follow Python list semantics (negative indices count from the
end, out-of-range raises `IndexError`); slices are modelled with optional
start/stop bounds and the implicit step 1, with Python's clamping. -/

/-- Python list index normalisation: the in-range position, or `none` for an
`IndexError`. -/
def pyIdx (len : Nat) (i : Int) : Option Nat :=
  let j := if i < 0 then i + len else i
  if 0 ≤ j ∧ j < len then some j.toNat else none

/-- Python slice bound normalisation for step 1, as in `slice.indices`. -/
def pyBound (len : Nat) (dflt : Nat) : Option Int → Nat
  | none => dflt
  | some s => if s < 0 then (s + len).toNat else min s.toNat len

/-- Source `Children.__setitem__` with an integer index: coerce the value
through `_check_child`, then `self._data[i] = obj`.  No parent back-reference
is written. -/
def Children.setitem_int (owner : Nat) (i : Int) (v : PVal) : M Unit := do
  let c ← _check_child owner v
  let h ← getH
  let l := (h.get owner).children
  match pyIdx l.length i with
  | none => throwE Err.indexError
  | some j => setH (h.set owner { h.get owner with children := l.set j c })

/-- Source `Children.__setitem__` with a slice: coerce every incoming value
(left to right), then `self._data[i] = obj` replaces the addressed range.
No parent back-references are written. -/
def Children.setitem_slice (owner : Nat) (start stop : Option Int)
    (vs : List PVal) : M Unit := do
  let cs ← vs.mapM (_check_child owner)
  let h ← getH
  let l := (h.get owner).children
  let lo := pyBound l.length 0 start
  let hi := max lo (pyBound l.length l.length stop)
  setH (h.set owner { h.get owner with children := l.take lo ++ cs ++ l.drop hi })

/-- Source `Children.__delitem__` at an integer index: `data = self[i]` is a
single unit; `isinstance(data, Node)` clears the back-reference only for an
interior node — a `Leaf` falls into the `for node in data:` branch, and
iterating a `Leaf` raises `TypeError` before anything is removed. -/
def Children.delitem_int (owner : Nat) (i : Int) : M Unit := do
  let h ← getH
  let l := (h.get owner).children
  match pyIdx l.length i with
  | none => throwE Err.indexError
  | some j =>
    let d := l.getD j 0
    if (h.get d).isNode then do
      modifyH (fun h2 => h2.set d { h2.get d with parent := none })
      modifyH (fun h2 =>
        h2.set owner { h2.get owner with children := (h2.get owner).children.eraseIdx j })
    else throwE Err.typeError

/-- Source `Children.__delitem__` at a slice: `data = self[i]` is a list, so
the `for node in data:` branch clears the back-reference of every removed
unit, then `del self._data[i]` removes the range. -/
def Children.delitem_slice (owner : Nat) (start stop : Option Int) : M Unit := do
  let h ← getH
  let l := (h.get owner).children
  let lo := pyBound l.length 0 start
  let hi := max lo (pyBound l.length l.length stop)
  let removed := (l.drop lo).take (hi - lo)
  for d in removed do
    modifyH (fun h2 => h2.set d { h2.get d with parent := none })
  modifyH (fun h2 =>
    h2.set owner
      { h2.get owner with
        children := (h2.get owner).children.take lo ++ (h2.get owner).children.drop hi })

/-- Source `Children.insert`: coerce through `_check_child`, then
`self._data.insert(index, obj)` (Python `list.insert` clamps the index).  No
parent back-reference is written. -/
def Children.insert (owner : Nat) (index : Int) (v : PVal) : M Unit := do
  let c ← _check_child owner v
  let h ← getH
  let l := (h.get owner).children
  let j := if index < 0 then (index + l.length).toNat else min index.toNat l.length
  setH (h.set owner { h.get owner with children := l.take j ++ [c] ++ l.drop j })

/-- The `MutableSequence.append` mixin: `self.insert(len(self), value)`. -/
def Children.append (owner : Nat) (v : PVal) : M Unit := do
  let h ← getH
  Children.insert owner ((h.get owner).children.length : Int) v

/-! ### The parent setter (node.py lines 44–55) -/

/-- Source `NodeOrLeaf.parent` setter.  Order of the source's tests: `None`
assignment writes `_parent = None` directly; a non-`Node` value raises
`TypeError`; a value identical to the current `_parent` does nothing; a
cycle (`self.is_ancestor_of(value) or value.is_ancestor_of(self) or
self is value`) raises `ValueError`; otherwise `self.detach()` then
`value.children.append(self)`.  Note that this path never writes `_parent`. -/
def set_parent (self : Nat) (value : Option PVal) : M Unit := do
  match value with
  | none => modifyH (fun h => h.set self { h.get self with parent := none })
  | some (PVal.int _) => throwE Err.typeError
  | some (PVal.ref w) => do
    let h ← getH
    if (h.get w).isNode = false then throwE Err.typeError
    else if (h.get self).parent = some w then pure ()
    else if is_ancestor_of h self w || is_ancestor_of h w self || self == w then
      throwE Err.valueError
    else do
      let _ ← detach self
      Children.append w (PVal.ref self)

/-! ### The children setter (node.py lines 431–443) -/

/-- Source `Node.children` setter.  `old_children = self.children` builds
`Children(self, self._children)`, a live view over the same list object, so
after `self._children.clear()` and a partial attach loop the except branch's
`self._children[:] = old_children` merely writes the list's current contents
back into itself before re-raising: the modelled handler does exactly that.
The loop body is `child.parent = self`; on a plain non-unit value that
attribute assignment raises `AttributeError`.  The source then asserts that
as many children were attached as were passed. -/
def set_children (self : Nat) (new : List PVal) : M Unit := do
  modifyH (fun h => h.set self { h.get self with children := [] })
  tryM
    (do
      for child in new do
        match child with
        | PVal.ref c => set_parent c (some (PVal.ref self))
        | PVal.int _ => throwE Err.attributeError
      let h ← getH
      if (h.get self).children.length ≠ new.length then throwE Err.assertionError)
    (fun e => do
      let h ← getH
      setH (h.set self { h.get self with children := (h.get self).children })
      throwE e)

/-! ### Constructors (node.py lines 132–135, 395–397, 445–462) -/

/-- Source `Leaf.__init__`: a fresh leaf holding `value`, with no parent. -/
def Leaf.init (value : PVal) : M Nat := do
  let h ← getH
  match h.alloc ⟨false, some value, none, []⟩ with
  | (i, h1) => do
    setH h1
    pure i

/-- Source `Node.__init__`: allocate the node, then for each constructor
child: a unit whose `_parent` is already set raises `TreeError`; a plain
value is wrapped in a fresh `Leaf`; the (possibly wrapped) child gets
`_parent = self` and is appended to `_children`. -/
def Node.init (children : List PVal) : M Nat := do
  let h0 ← getH
  match h0.alloc ⟨true, none, none, []⟩ with
  | (self, h1) => do
    setH h1
    for child in children do
      match child with
      | PVal.ref c => do
        let h ← getH
        if (h.get c).parent ≠ none then throwE Err.treeError
        else
          let h2 := h.set c { h.get c with parent := some self }
          setH (h2.set self { h2.get self with children := (h2.get self).children ++ [c] })
      | PVal.int n => do
        let h ← getH
        match h.alloc ⟨false, some (PVal.int n), none, []⟩ with
        | (c, h2) =>
          let h3 := h2.set c { h2.get c with parent := some self }
          setH (h3.set self { h3.get self with children := (h3.get self).children ++ [c] })
    pure self

/-! ### The specification's single-ownership invariant -/

/-- The invariant as the specification states it: every unit occurring in
some object's children sequence has that object as its `parent`
back-reference, occurs in no other object's children sequence, and occurs in
its own parent's sequence exactly once. -/
def singleOwnership (h : Heap) : Bool :=
  (List.range h.objs.size).all fun p =>
    (h.get p).children.all fun i =>
      ((h.get i).parent == some p) &&
      ((h.get p).children.count i == 1) &&
      ((List.range h.objs.size).all fun q => q == p || !((h.get q).children.contains i))

/-! ### The actual contract of the parent setter

The amended description of `u.parent = v`, organised by the cases of the
specification sentence rather than by the code's control flow; the theorem
for the amended claim proves the composed setter (parent-setter, `detach`,
`discard_child`, `_check_child`, `Children.append`) equal to this flat
description on every heap. -/

/-- Outcome of the attach step `value.children.append(self)` once it is
reached: an interior node identical to a current child of `w` raises
`ValueError`; any other interior node is appended as-is; a leaf is wrapped in
a fresh leaf holding it and the wrapper is appended.  In every case the
back-reference of `self` is left untouched. -/
def parent_attach_spec (h : Heap) (self w : Nat) : Except Err Unit × Heap :=
  if (h.get self).isNode then
    if (h.get w).children.contains self then (Except.error Err.valueError, h)
    else
      (Except.ok (),
        h.set w { h.get w with children := (h.get w).children ++ [self] })
  else
    match h.alloc ⟨false, some (PVal.ref self), none, []⟩ with
    | (i, h1) =>
      (Except.ok (),
        h1.set w { h1.get w with children := (h1.get w).children ++ [i] })

/-- The amended contract of the parent setter, case by case: assigning `none`
clears the back-reference (without removing the unit from any children
sequence); a non-`Node` target raises `TypeError`; a target identical to the
current parent is a silent no-op (even though that target is an ancestor); a
target (other than the current parent) that is an ancestor or descendant of
the unit, or the unit itself, raises `ValueError` with no mutation; otherwise
the detach step runs — raising `TypeError` with no mutation whenever the unit
is attached to a parent with a nonempty children list — and on a root (or a
unit whose parent's children list is empty) the attach step of
`parent_attach_spec` runs, which never updates the unit's back-reference. -/
def parentSetSpec (h : Heap) (self : Nat) (value : Option PVal) :
    Except Err Unit × Heap :=
  match value with
  | none => (Except.ok (), h.set self { h.get self with parent := none })
  | some (PVal.int _) => (Except.error Err.typeError, h)
  | some (PVal.ref w) =>
    if (h.get w).isNode = false then (Except.error Err.typeError, h)
    else if (h.get self).parent = some w then (Except.ok (), h)
    else if is_ancestor_of h self w || is_ancestor_of h w self || self == w then
      (Except.error Err.valueError, h)
    else
      match (h.get self).parent with
      | some p =>
        match (h.get p).children with
        | [] => parent_attach_spec h self w
        | _ :: _ => (Except.error Err.typeError, h)
      | none => parent_attach_spec h self w


/-!
## The pure tree model: traversal engine and query layer

The traversal generators (node.py lines 189–302) and the query layer
(lines 307–338) only read the `_children` lists of a tree that is acyclic by
construction, so they are modelled over a pure inductive tree, with the
source's recursion reproduced by well-founded recursion on the tree size.
-/

/-- A pure tree unit: a `Leaf` with an integer payload, or an interior
`Node` with its ordered children. -/
inductive PTree where
  | leaf : Int → PTree
  | node : List PTree → PTree

/-- The `_children` attribute: the class attribute `()` on a leaf, the
children list on an interior node. -/
def PTree.children : PTree → List PTree
  | .leaf _ => []
  | .node cs => cs

theorem PTree.sizeOf_lt_of_mem_children {c t : PTree} (hc : c ∈ t.children) :
    sizeOf c < sizeOf t := by
  cases t with
  | leaf v => simp [PTree.children] at hc
  | node cs =>
    simp only [PTree.children] at hc
    have h1 := List.sizeOf_lt_of_mem hc
    simp only [PTree.node.sizeOf_spec]
    omega

/-- Strong induction over a tree through its children lists; it mirrors the
recursion pattern of every traversal generator. -/
theorem PTree.strong_ind (P : PTree → Prop)
    (step : ∀ t, (∀ c ∈ t.children, P c) → P t) (t : PTree) : P t :=
  step t (fun c hc => PTree.strong_ind P step c)
termination_by sizeOf t
decreasing_by exact PTree.sizeOf_lt_of_mem_children hc

theorem attach_flatMap {α β : Type} (l : List α) (f : α → List β) :
    l.attach.flatMap (fun x => f x.1) = l.flatMap f := by
  induction l with
  | nil => rfl
  | cons a l ih =>
    simp [List.attach, List.attachWith, List.flatMap, List.map_pmap, List.pmap_eq_map]

theorem attach_map {α β : Type} (l : List α) (f : α → β) :
    l.attach.map (fun x => f x.1) = l.map f := by
  induction l with
  | nil => rfl
  | cons a l ih => simp [List.attach, List.attachWith, List.map_pmap, List.pmap_eq_map]

theorem flatMap_congr_mem {α β : Type} {l : List α} {f g : α → List β}
    (h : ∀ a ∈ l, f a = g a) : l.flatMap f = l.flatMap g := by
  induction l with
  | nil => rfl
  | cons a l ih =>
    simp only [List.flatMap_cons]
    rw [h a (by simp), ih (fun a ha => h a (by simp [ha]))]

/-- Truthiness of the tri-state `self` keyword argument (`None`, `True` or
`False`); the traversal methods receive it as their `this` parameter. -/
def truthy (b : Option Bool) : Bool := b == some true

/-- Test `this is not False`, used by the in-order and out-order variants. -/
def notFalse (b : Option Bool) : Bool := !(b == some false)

/-- A `max_depth` argument: an integer, or `none` for the default `INF`. -/
abbrev Depth := Option Int

/-- Test `max_depth < 0` (false on `INF`). -/
def dLt0 : Depth → Bool
  | none => false
  | some z => decide (z < 0)

/-- Test `max_depth == 0` (false on `INF`). -/
def dEq0 : Depth → Bool
  | none => false
  | some z => z == 0

/-- Test `max_depth > 0` (true on `INF`). -/
def dGt0 : Depth → Bool
  | none => true
  | some z => decide (0 < z)

/-- Compute `max_depth - 1` (`INF - 1 = INF`). -/
def dPred : Depth → Depth
  | none => none
  | some z => some (z - 1)

/-- Source `NodeOrLeaf._iter_children_simple` (lines 218–222), the fast path:
yield self when `yield_self` is truthy, then every child's simple iteration
with `True`. -/
def iter_children_simple (ys : Option Bool) (t : PTree) : List PTree :=
  (if truthy ys then [t] else []) ++
    t.children.attach.flatMap (fun c => iter_children_simple (some true) c.1)
termination_by sizeOf t
decreasing_by exact PTree.sizeOf_lt_of_mem_children c.2

theorem iter_children_simple_eq (ys : Option Bool) (t : PTree) :
    iter_children_simple ys t =
      (if truthy ys then [t] else []) ++
        t.children.flatMap (iter_children_simple (some true)) := by
  rw [iter_children_simple, attach_flatMap]

/-- Source `NodeOrLeaf._iter_children_pre_order` (lines 237–243): nothing when
the predicate rejects self or `max_depth < 0`; otherwise self (when `this` is
truthy) followed by each child's pre-order traversal with `max_depth - 1`. -/
def iter_children_pre_order (this : Option Bool) (keep : PTree → Bool) (d : Depth)
    (t : PTree) : List PTree :=
  if !keep t || dLt0 d then []
  else
    (if truthy this then [t] else []) ++
      t.children.attach.flatMap
        (fun c => iter_children_pre_order (some true) keep (dPred d) c.1)
termination_by sizeOf t
decreasing_by exact PTree.sizeOf_lt_of_mem_children c.2

theorem iter_children_pre_order_eq (this : Option Bool) (keep : PTree → Bool)
    (d : Depth) (t : PTree) :
    iter_children_pre_order this keep d t =
      if !keep t || dLt0 d then []
      else
        (if truthy this then [t] else []) ++
          t.children.flatMap (iter_children_pre_order (some true) keep (dPred d)) := by
  rw [iter_children_pre_order]
  split
  · rfl
  · rw [attach_flatMap]

/-- Source `NodeOrLeaf._iter_children_post_order` (lines 245–251): each
child's post-order traversal, then self when `this` is truthy. -/
def iter_children_post_order (this : Option Bool) (keep : PTree → Bool) (d : Depth)
    (t : PTree) : List PTree :=
  if !keep t || dLt0 d then []
  else
    t.children.attach.flatMap
        (fun c => iter_children_post_order (some true) keep (dPred d) c.1) ++
      (if truthy this then [t] else [])
termination_by sizeOf t
decreasing_by exact PTree.sizeOf_lt_of_mem_children c.2

/-- Source `NodeOrLeaf._iter_children_in_order` (lines 253–265): the first
child is the left subtree, self is emitted when `this is not False`, then the
remaining children in order. -/
def iter_children_in_order (this : Option Bool) (keep : PTree → Bool) (d : Depth)
    (t : PTree) : List PTree :=
  if !keep t || dLt0 d then []
  else
    match hm : t.children with
    | [] => if notFalse this then [t] else []
    | lhs :: rest =>
      iter_children_in_order (some true) keep (dPred d) lhs ++
        (if notFalse this then [t] else []) ++
        rest.attach.flatMap
          (fun c => iter_children_in_order (some true) keep (dPred d) c.1)
termination_by sizeOf t
decreasing_by
  · exact PTree.sizeOf_lt_of_mem_children (hm ▸ List.mem_cons_self lhs rest)
  · exact PTree.sizeOf_lt_of_mem_children (hm ▸ List.mem_cons_of_mem lhs c.2)

/-- Source `NodeOrLeaf._iter_children_out_order` (lines 267–279): the last
child's traversal first, self when `this is not False`, then the remaining
children in their original order. -/
def iter_children_out_order (this : Option Bool) (keep : PTree → Bool) (d : Depth)
    (t : PTree) : List PTree :=
  if !keep t || dLt0 d then []
  else
    match hm : t.children with
    | [] => if notFalse this then [t] else []
    | c0 :: cs =>
      iter_children_out_order (some true) keep (dPred d)
          ((c0 :: cs).getLast (List.cons_ne_nil c0 cs)) ++
        (if notFalse this then [t] else []) ++
        (c0 :: cs).dropLast.attach.flatMap
          (fun c => iter_children_out_order (some true) keep (dPred d) c.1)
termination_by sizeOf t
decreasing_by
  · have hmem : (c0 :: cs).getLast (List.cons_ne_nil c0 cs) ∈ t.children := by
      rw [hm]
      exact List.getLast_mem (List.cons_ne_nil c0 cs)
    exact PTree.sizeOf_lt_of_mem_children hmem
  · have hmem : c.1 ∈ t.children := by
      rw [hm]
      exact (List.dropLast_prefix (c0 :: cs)).subset c.2
    exact PTree.sizeOf_lt_of_mem_children hmem

theorem children_mapSum_lt (t : PTree) :
    ((PTree.children t).map SizeOf.sizeOf).sum < sizeOf t := by
  have haux : ∀ l : List PTree, (l.map SizeOf.sizeOf).sum < sizeOf l := by
    intro l
    induction l with
    | nil => simp
    | cons a l ih =>
      simp only [List.map_cons, List.sum_cons, List.cons.sizeOf_spec]
      omega
  cases t with
  | leaf v => simp [PTree.children, PTree.leaf.sizeOf_spec]
  | node cs =>
    have := haux cs
    simp only [PTree.children, PTree.node.sizeOf_spec]
    omega

theorem flatMap_children_mapSum_lt {frontier : List PTree} (hne : frontier ≠ []) :
    ((frontier.flatMap PTree.children).map SizeOf.sizeOf).sum <
      (frontier.map SizeOf.sizeOf).sum := by
  have hle : ∀ l : List PTree,
      ((l.flatMap PTree.children).map SizeOf.sizeOf).sum ≤
        (l.map SizeOf.sizeOf).sum := by
    intro l
    induction l with
    | nil => simp
    | cons a l ih =>
      simp only [List.flatMap_cons, List.map_append, List.sum_append, List.map_cons,
        List.sum_cons]
      have := children_mapSum_lt a
      omega
  cases frontier with
  | nil => exact absurd rfl hne
  | cons a l =>
    simp only [List.flatMap_cons, List.map_append, List.sum_append, List.map_cons,
      List.sum_cons]
    have h1 := children_mapSum_lt a
    have h2 := hle l
    omega

theorem filter_mapSum_le (p : PTree → Bool) (l : List PTree) :
    ((l.filter p).map SizeOf.sizeOf).sum ≤ (l.map SizeOf.sizeOf).sum := by
  induction l with
  | nil => simp
  | cons a l ih =>
    simp only [List.filter_cons]
    split
    · simp only [List.map_cons, List.sum_cons]
      omega
    · simp only [List.map_cons, List.sum_cons]
      omega

/-- The generation loop of `_iter_children_level_order` (lines 231–235):
while the frontier is nonempty and depth remains, yield the whole frontier
and move to the filtered next generation.  It terminates because every next
generation has strictly smaller total size. -/
def level_order_loop (keep : PTree → Bool) (d : Depth) (frontier : List PTree) :
    List PTree :=
  if h : frontier.isEmpty || !dGt0 d then []
  else
    frontier ++
      level_order_loop keep (dPred d) ((frontier.flatMap PTree.children).filter keep)
termination_by (frontier.map SizeOf.sizeOf).sum
decreasing_by
  have hne : frontier ≠ [] := by
    intro hfe
    simp [hfe] at h
  calc (((frontier.flatMap PTree.children).filter keep).map SizeOf.sizeOf).sum
      ≤ ((frontier.flatMap PTree.children).map SizeOf.sizeOf).sum :=
        filter_mapSum_le keep (frontier.flatMap PTree.children)
    _ < (frontier.map SizeOf.sizeOf).sum := flatMap_children_mapSum_lt hne

/-- Source `NodeOrLeaf._iter_children_level_order` (lines 224–235).  The
source's `_keep` helper returns the list unchanged when `keep` is the default
`TRUE` sentinel and `list(filter(keep, lst))` otherwise; both equal
`List.filter keep`, which is used uniformly here. -/
def iter_children_level_order (this : Option Bool) (keep : PTree → Bool) (d : Depth)
    (t : PTree) : List PTree :=
  if !keep t || dEq0 d then []
  else
    (if truthy this then [t] else []) ++
      level_order_loop keep d (t.children.filter keep)

/-- The valid traversal order names `iter_children` can dispatch to. -/
inductive Order where
  | level_order
  | pre_order
  | post_order
  | in_order
  | out_order
deriving DecidableEq, Repr

/-- The keyword arguments every traversal accepts, with the source defaults
`keep=TRUE` and `max_depth=INF`. -/
structure TravOpts where
  keep : PTree → Bool := fun _ => true
  max_depth : Depth := none

/-- Source `NodeOrLeaf.iter_children` (lines 189–202): with no order name and
no keyword arguments (`how is None and not kwargs`) it takes the
`_iter_children_simple` fast path; otherwise it dispatches on the order name
(defaulting to `pre-order`), forwarding the `self` flag and the keyword
arguments. -/
def iter_children (t : PTree) (how : Option Order) (ys : Option Bool)
    (kwargs : Option TravOpts) : List PTree :=
  match how, kwargs with
  | none, none => iter_children_simple ys t
  | _, _ =>
    let o := kwargs.getD {}
    match how.getD Order.pre_order with
    | Order.level_order => iter_children_level_order ys o.keep o.max_depth t
    | Order.pre_order => iter_children_pre_order ys o.keep o.max_depth t
    | Order.post_order => iter_children_post_order ys o.keep o.max_depth t
    | Order.in_order => iter_children_in_order ys o.keep o.max_depth t
    | Order.out_order => iter_children_out_order ys o.keep o.max_depth t

/-- The materialised, optionally predicate-filtered traversal that
`find_all` builds: `data = tuple(data)` after the optional
`_filter(pred, data)` (whose `filter` wraps the builtin filter). -/
def find_all_data (t : PTree) (pred : Option (PTree → Bool)) (how : Option Order)
    (ys : Option Bool) (kwargs : Option TravOpts) : List PTree :=
  match pred with
  | some p => (iter_children t how ys kwargs).filter p
  | none => iter_children t how ys kwargs

/-- Source `NodeOrLeaf.find_all` (lines 307–338): materialise the traversal,
optionally filter by the predicate, and raise `ValueError` when the count
falls below `min_count` (default `0`) or above `max_count` (default `INF`,
modelled as `none`). -/
def find_all (t : PTree) (pred : Option (PTree → Bool)) (how : Option Order)
    (ys : Option Bool) (kwargs : Option TravOpts) (min_count : Int)
    (max_count : Option Int) : Except Err (List PTree) :=
  let data := find_all_data t pred how ys kwargs
  if (data.length : Int) < min_count then Except.error Err.valueError
  else if (match max_count with
           | none => false
           | some m => decide (m < (data.length : Int))) then
    Except.error Err.valueError
  else Except.ok data

/-- The `height` property (line 118,
`max((c.height for c in self._children), default=0) + 1` on an interior node)
together with the `Leaf.height = 0` override (line 393). -/
def PTree.height : PTree → Nat
  | .leaf _ => 0
  | .node cs => (cs.attach.map (fun c => PTree.height c.1)).foldr max 0 + 1
termination_by t => sizeOf t
decreasing_by
  have h1 := List.sizeOf_lt_of_mem c.2
  simp only [PTree.node.sizeOf_spec]
  omega

/-- The `is_leaf` property (line 124, `len(self._children) == 0`) together
with the `Leaf.is_leaf = True` override (line 392). -/
def PTree.is_leaf : PTree → Bool
  | .leaf _ => true
  | .node cs => cs.length == 0

/-!
## Theorems about the claims
-/

/-- The heap after `v = Node([]); n = Node([]); v.children.insert(0, n)`:
unit 0 is `v`, unit 1 is `n`. -/
def treeC1 : Heap := ⟨#[⟨true, none, none, [1]⟩, ⟨true, none, none, []⟩]⟩

/-- C1.  The single-ownership invariant does not survive public mutation:
inserting the root node `n` into `v.children` (through `Children.insert`)
leaves `n` inside `v`'s children sequence while `n`'s parent back-reference
is still `None`, because `Children.insert` never writes the back-reference.
So the final heap violates `singleOwnership`. -/
theorem insert_breaks_single_ownership :
    M.run (do
        let v ← Node.init []
        let n ← Node.init []
        Children.insert v 0 (PVal.ref n)
        pure (v, n)) emptyHeap = (Except.ok (0, 1), treeC1) ∧
    (treeC1.get 0).children = [1] ∧
    (treeC1.get 1).parent = none ∧
    singleOwnership treeC1 = false :=
  ⟨rfl, rfl, rfl, rfl⟩

/-- The heap after `n = Node([Leaf(1)])`: unit 0 is `n`, unit 1 the leaf. -/
def treeC2 : Heap :=
  ⟨#[⟨true, none, none, [1]⟩, ⟨false, some (PVal.int 1), some 0, []⟩]⟩

/-- C2.  `detach` on an attached unit raises `TypeError` instead of removing
it: `discard_child`'s loop tuple-unpacks each child (`for idx, elem in
self._children:`), which fails on the first `Leaf`/`Node` child; the unit
stays in its parent's children sequence and its back-reference stays set.
`detach` on a root is the claimed no-op returning self. -/
theorem detach_attached_raises :
    M.run (Node.init [PVal.int 1]) emptyHeap = (Except.ok 0, treeC2) ∧
    M.run (detach 1) treeC2 = (Except.error Err.typeError, treeC2) ∧
    (treeC2.get 1).parent = some 0 ∧
    (treeC2.get 0).children = [1] ∧
    M.run (detach 0) treeC2 = (Except.ok 0, treeC2) :=
  ⟨rfl, rfl, rfl, rfl, rfl⟩

/-- The heap after `m = Node([Leaf(2)]); n = Node([Leaf(1)])`: unit 0 is
`m`, unit 1 its leaf, unit 2 is `n`, unit 3 its leaf. -/
def treeC3 : Heap :=
  ⟨#[⟨true, none, none, [1]⟩, ⟨false, some (PVal.int 2), some 0, []⟩,
     ⟨true, none, none, [3]⟩, ⟨false, some (PVal.int 1), some 2, []⟩]⟩

/-- `treeC3` after the failed bulk replacement `n.children = [m.children[0]]`:
`n`'s children list stays cleared. -/
def treeC3after : Heap :=
  ⟨#[⟨true, none, none, [1]⟩, ⟨false, some (PVal.int 2), some 0, []⟩,
     ⟨true, none, none, []⟩, ⟨false, some (PVal.int 1), some 2, []⟩]⟩

/-- C3.  Bulk replacement is not atomic.  Assigning `n.children = [u]` where
`u` (unit 1) already has a parent raises (`TypeError`, out of the broken
detach step), but `n`'s children sequence afterwards is `[]`, not the
original `[3]`: the setter's `old_children` is a live `Children` view over
the very list that was cleared, so the except-branch restore writes the
cleared contents back and the original children are lost. -/
theorem children_setter_fails_without_rollback :
    M.run (do
        let _ ← Node.init [PVal.int 2]
        Node.init [PVal.int 1]) emptyHeap = (Except.ok 2, treeC3) ∧
    (treeC3.get 2).children = [3] ∧
    (treeC3.get 1).parent = some 0 ∧
    M.run (set_children 2 [PVal.ref 1]) treeC3 = (Except.error Err.typeError, treeC3after) ∧
    (treeC3after.get 2).children = [] :=
  ⟨rfl, rfl, rfl, rfl, rfl⟩

/-- The heap after `n = Node([Leaf(5)])`: unit 0 is `n`, unit 1 the leaf. -/
def treeC4 : Heap :=
  ⟨#[⟨true, none, none, [1]⟩, ⟨false, some (PVal.int 5), some 0, []⟩]⟩

/-- C4, counterexample.  Assigning a unit's parent to its current parent —
which is an ancestor of the unit — raises no cycle error at all: the setter's
`value is not self._parent` guard short-circuits into a silent no-op, against
the claim that an ancestor target always raises. -/
theorem parent_set_to_own_parent_is_silent :
    M.run (Node.init [PVal.int 5]) emptyHeap = (Except.ok 0, treeC4) ∧
    is_ancestor_of treeC4 0 1 = true ∧
    M.run (set_parent 1 (some (PVal.ref 0))) treeC4 = (Except.ok (), treeC4) :=
  ⟨rfl, rfl, rfl⟩

/-- The heap after `n = Node([Leaf(7)]); w = Leaf(9)`: unit 0 is `n`, unit 1
its leaf, unit 2 the detached leaf `w`. -/
def treeC5 : Heap :=
  ⟨#[⟨true, none, none, [1]⟩, ⟨false, some (PVal.int 7), some 0, []⟩,
     ⟨false, some (PVal.int 9), none, []⟩]⟩

/-- `treeC5` after `n.children[0] = w`: a fresh leaf (unit 3) wrapping `w`
replaces the slot; `w` itself is not a child. -/
def treeC5after : Heap :=
  ⟨#[⟨true, none, none, [3]⟩, ⟨false, some (PVal.int 7), some 0, []⟩,
     ⟨false, some (PVal.int 9), none, []⟩, ⟨false, some (PVal.ref 2), none, []⟩]⟩

/-- The heap after `a = Node([]); b = Node([]); a.children.insert(0, b)`,
used for the duplicate-identity part of C5. -/
def treeC5dup : Heap := ⟨#[⟨true, none, none, [1]⟩, ⟨true, none, none, []⟩]⟩

/-- C5.  Index assignment does not pass a leaf unit through: `_check_child`
tests `isinstance(child, Node)`, so the leaf `w` (unit 2) is wrapped in a
fresh leaf whose value is `w` itself and never reaches the duplicate check;
only interior nodes pass through, and for them the duplicate-identity check
does raise `ValueError`. -/
theorem setitem_wraps_leaf_unit :
    M.run (do
        let _ ← Node.init [PVal.int 7]
        let _ ← Leaf.init (PVal.int 9)
        pure ()) emptyHeap = (Except.ok (), treeC5) ∧
    M.run (Children.setitem_int 0 0 (PVal.ref 2)) treeC5 = (Except.ok (), treeC5after) ∧
    (treeC5after.get 0).children = [3] ∧
    treeC5after.get 3 = ⟨false, some (PVal.ref 2), none, []⟩ ∧
    M.run (do
        let a ← Node.init []
        let b ← Node.init []
        Children.insert a 0 (PVal.ref b)
        Children.setitem_int a 0 (PVal.ref b)) emptyHeap =
      (Except.error Err.valueError, treeC5dup) :=
  ⟨rfl, rfl, rfl, rfl, rfl⟩

/-- The heap after `n = Node([Leaf(1), Leaf(2)])`. -/
def treeC6 : Heap :=
  ⟨#[⟨true, none, none, [1, 2]⟩, ⟨false, some (PVal.int 1), some 0, []⟩,
     ⟨false, some (PVal.int 2), some 0, []⟩]⟩

/-- `treeC6` after `del n.children[0:2]`: both leaves removed with their
back-references cleared. -/
def treeC6after : Heap :=
  ⟨#[⟨true, none, none, []⟩, ⟨false, some (PVal.int 1), none, []⟩,
     ⟨false, some (PVal.int 2), none, []⟩]⟩

/-- C6.  Deleting at an index whose slot holds a leaf raises `TypeError`
(the `isinstance(data, Node)` dispatch sends single leaves into the
iterate-and-clear branch, and a leaf is not iterable), with nothing removed
and no back-reference cleared; slice deletion does clear the back-reference
of every removed unit before removing them. -/
theorem delitem_index_leaf_raises :
    M.run (Node.init [PVal.int 1, PVal.int 2]) emptyHeap = (Except.ok 0, treeC6) ∧
    M.run (Children.delitem_int 0 0) treeC6 = (Except.error Err.typeError, treeC6) ∧
    M.run (Children.delitem_slice 0 (some 0) (some 2)) treeC6 = (Except.ok (), treeC6after) ∧
    (treeC6after.get 1).parent = none ∧
    (treeC6after.get 2).parent = none ∧
    (treeC6after.get 0).children = [] :=
  ⟨rfl, rfl, rfl, rfl, rfl, rfl⟩

/-- C8.  The height of a childless interior node: the source formula
`max((c.height for c in self._children), default=0) + 1` yields 1, although
such a unit's children collection is empty (the claim, and the property's own
doc comment, give 0); a `Leaf` has height 0, and on trees whose interior
nodes all have children the formula does count edges (last conjunct). -/
theorem height_of_childless_node :
    PTree.height (PTree.node []) = 1 ∧
    (PTree.node []).children = [] ∧
    PTree.height (PTree.leaf 0) = 0 ∧
    PTree.height (PTree.node [PTree.leaf 1, PTree.leaf 2]) = 1 := by
  refine ⟨?_, rfl, ?_, ?_⟩ <;> simp [PTree.height]

/-- Fast-path/pre-order agreement for every value of the `self` flag, with
the default options `keep = TRUE` and `max_depth = INF`. -/
theorem simple_eq_pre_order_default (t : PTree) :
    ∀ ys, iter_children_simple ys t =
      iter_children_pre_order ys (fun _ => true) none t := by
  induction t using PTree.strong_ind with
  | step t ih =>
    intro ys
    rw [iter_children_simple_eq, iter_children_pre_order_eq]
    simp only [Bool.not_true, Bool.false_or, dLt0, if_neg Bool.false_ne_true]
    congr 1
    exact flatMap_congr_mem (fun c hc => ih c hc (some true))

/-- C9.  Calling `iter_children` with no order name and no keyword arguments
(the `_iter_children_simple` fast path) yields exactly the pre-order
traversal with default options, for every tree and every value of the `self`
flag. -/
theorem iter_children_fast_path_matches_pre_order (t : PTree) (ys : Option Bool) :
    iter_children t none ys none = iter_children t (some Order.pre_order) ys none :=
  simple_eq_pre_order_default t ys

/-- C10.  A unit reports `is_leaf` exactly when its children collection is
empty; in particular a childless interior node reports `is_leaf = true`
although it is not a `Leaf`. -/
theorem is_leaf_iff_children_empty :
    (∀ u : PTree, u.is_leaf = ((PTree.children u).length == 0)) ∧
    (PTree.node []).is_leaf = true ∧
    (∀ v : Int, PTree.node [] ≠ PTree.leaf v) := by
  refine ⟨?_, rfl, ?_⟩
  · intro u
    cases u <;> rfl
  · intro v h
    exact PTree.noConfusion h

/-!
### Evaluation lemmas for the heap monad

Small-step characterisations of the monad's primitives and of the composed
operations, used to settle the parent-setter claim on arbitrary heaps.
-/

theorem run_bind {α β : Type} (m : M α) (f : α → M β) (h : Heap) :
    (m >>= f) h =
      match m h with
      | (Except.ok a, h1) => f a h1
      | (Except.error e, h1) => (Except.error e, h1) := rfl

theorem run_getH (h : Heap) : getH h = (Except.ok h, h) := rfl

theorem run_pure {α : Type} (a : α) (h : Heap) : (pure a : M α) h = (Except.ok a, h) := rfl

theorem run_throwE {α : Type} (e : Err) (h : Heap) :
    (throwE e : M α) h = (Except.error e, h) := rfl

theorem run_setH (h1 h : Heap) : (setH h1) h = (Except.ok (), h1) := rfl

theorem run_modifyH (f : Heap → Heap) (h : Heap) :
    (modifyH f) h = (Except.ok (), f h) := rfl

theorem Heap.get_oob {h : Heap} {w : Nat} (hw : ¬ w < h.objs.size) :
    h.get w = dummyObj := by
  simp [Heap.get, Array.getD, hw]

theorem Heap.get_push_lt {h : Heap} {o : Obj} {w : Nat} (hw : w < h.objs.size) :
    (Heap.mk (h.objs.push o)).get w = h.get w := by
  simp [Heap.get, Array.getD, hw, Nat.lt_succ_of_lt, Array.getElem_push_lt]

theorem get_push_children_length (h : Heap) (o : Obj) (ho : o.children = [])
    (w : Nat) :
    ((Heap.mk (h.objs.push o)).get w).children.length =
      ((h.get w).children.length) := by
  by_cases hlt : w < h.objs.size
  · rw [Heap.get_push_lt hlt]
  · have hd : h.get w = dummyObj := Heap.get_oob hlt
    by_cases he : w = h.objs.size
    · have h2 : (Heap.mk (h.objs.push o)).get w = o := by
        simp [Heap.get, Array.getD, he]
      rw [h2, hd, ho]
      rfl
    · have h3 : ¬ w < h.objs.size + 1 := by omega
      have h2 : (Heap.mk (h.objs.push o)).get w = dummyObj := by
        simp [Heap.get, Array.getD, h3]
      rw [h2, hd]

/-- The attach step `value.children.append(self)` of the parent setter,
evaluated on an arbitrary heap, agrees with `parent_attach_spec`. -/
theorem children_append_run (h : Heap) (w x : Nat) :
    Children.append w (PVal.ref x) h = parent_attach_spec h x w := by
  simp only [Children.append, Children.insert, _check_child, parent_attach_spec, Heap.alloc,
    run_bind, run_getH, run_setH, run_pure, run_throwE]
  by_cases hx : (h.get x).isNode
  · by_cases hdup : x ∈ (h.get w).children
    · simp [hx, hdup, run_throwE]
    · have hneg : ¬ ((((h.get w).children.length : Nat) : Int) < 0) := by omega
      simp [hx, hdup, run_pure, hneg, Int.toNat_natCast, List.take_length, List.drop_length]
  · simp only [hx, Bool.false_eq_true, if_false, run_bind, run_setH, run_pure]
    have hneg : ¬ ((((h.get w).children.length : Nat) : Int) < 0) := by omega
    rw [if_neg hneg, ← get_push_children_length h ⟨false, some (PVal.ref x), none, []⟩ rfl w]
    simp [List.take_length, List.drop_length]

/-- Evaluation of `detach` on an arbitrary heap: a no-op returning self on a
root or when the parent's children list is empty, `TypeError` otherwise. -/
theorem run_detach (h : Heap) (self : Nat) :
    detach self h =
      match (h.get self).parent with
      | none => (Except.ok self, h)
      | some p =>
        match (h.get p).children with
        | [] => (Except.ok self, h)
        | _ :: _ => (Except.error Err.typeError, h) := by
  cases hpar : (h.get self).parent with
  | none => simp only [detach, run_bind, run_getH, hpar, run_pure]
  | some p =>
    cases hch : (h.get p).children with
    | nil =>
      simp only [detach, discard_child, run_bind, run_getH, hpar, hch, run_pure,
        run_throwE, Bool.false_eq_true, if_false]
    | cons a l =>
      simp only [detach, discard_child, run_bind, run_getH, hpar, hch, run_throwE]

/-- C4, amended claim.  On every heap, every unit and every assigned value,
the parent setter behaves exactly as `parentSetSpec` describes: `none` clears
the back-reference; a non-node value raises `TypeError`; the unit's current
parent is a silent no-op; any other ancestor/descendant/self target raises
`ValueError` without mutation; otherwise the detach step raises `TypeError`
whenever the unit is attached to a parent with a nonempty children list, and
on a root the coerced unit is appended to the target's children with the
unit's back-reference left untouched. -/
theorem parent_setter_cases (h : Heap) (self : Nat) (value : Option PVal) :
    M.run (set_parent self value) h = parentSetSpec h self value := by
  match value with
  | none => rfl
  | some (PVal.int k) => rfl
  | some (PVal.ref w) =>
    show set_parent self (some (PVal.ref w)) h = _
    simp only [set_parent, parentSetSpec, run_bind, run_getH, run_pure, run_throwE]
    by_cases hw : (h.get w).isNode = false
    · simp [hw, run_throwE]
    · by_cases hp : (h.get self).parent = some w
      · simp [hw, hp, run_pure]
      · by_cases hcy : (is_ancestor_of h self w || is_ancestor_of h w self || self == w) = true
        · simp [hw, hp, hcy, run_throwE]
        · simp only [hw, hp, hcy, if_neg, if_false, Bool.false_eq_true]
          cases hpar : (h.get self).parent with
          | none =>
            simp [run_bind, run_detach, hpar, children_append_run]
          | some p =>
            cases hch : (h.get p).children with
            | nil => simp [run_bind, run_detach, hpar, hch, children_append_run]
            | cons a l => simp [run_bind, run_detach, hpar, hch]

/-- C7.  For every tree, predicate, traversal options and bounds, `find_all`
returns exactly the materialised (optionally filtered) traversal when its
length lies in the inclusive range from `min_count` to `max_count` (`none`
standing for the default infinite bound), and raises `ValueError` when the
length falls outside that range. -/
theorem find_all_count_bounds (t : PTree) (pred : Option (PTree → Bool))
    (how : Option Order) (ys : Option Bool) (kwargs : Option TravOpts)
    (min_count : Int) (max_count : Option Int) :
    (min_count ≤ ((find_all_data t pred how ys kwargs).length : Int) ∧
        (∀ m ∈ max_count, ((find_all_data t pred how ys kwargs).length : Int) ≤ m) →
      find_all t pred how ys kwargs min_count max_count =
        Except.ok (find_all_data t pred how ys kwargs)) ∧
    (((find_all_data t pred how ys kwargs).length : Int) < min_count ∨
        (∃ m ∈ max_count, m < ((find_all_data t pred how ys kwargs).length : Int)) →
      find_all t pred how ys kwargs min_count max_count = Except.error Err.valueError) := by
  constructor
  · rintro ⟨h1, h2⟩
    unfold find_all
    rw [if_neg (by omega)]
    cases max_count with
    | none => simp
    | some m =>
      have hm := h2 m (by simp)
      simp only [decide_eq_false
        (by omega : ¬ (m < ((find_all_data t pred how ys kwargs).length : Int)))]
      simp
  · intro hcases
    unfold find_all
    rcases hcases with hlt | ⟨m, hm, hgt⟩
    · rw [if_pos hlt]
    · have hmc : max_count = some m := by cases max_count <;> simp_all
      subst hmc
      by_cases hlt2 : ((find_all_data t pred how ys kwargs).length : Int) < min_count
      · rw [if_pos hlt2]
      · rw [if_neg hlt2]
        simp only [decide_eq_true hgt]
        simp

/-- Witness for C7: on the tree `Node([Leaf(1), Leaf(2)])` with the default
traversal and `self` included, a count within `min_count = 0` and no upper
bound returns the materialised sequence, while a count below `min_count = 10`
raises `ValueError`. -/
theorem find_all_count_bounds_check :
    find_all (PTree.node [PTree.leaf 1, PTree.leaf 2]) none none (some true) none 0 none =
      Except.ok (find_all_data (PTree.node [PTree.leaf 1, PTree.leaf 2]) none none
        (some true) none) ∧
    find_all (PTree.node [PTree.leaf 1, PTree.leaf 2]) none none (some true) none 10 none =
      Except.error Err.valueError := by
  constructor
  · exact (find_all_count_bounds (PTree.node [PTree.leaf 1, PTree.leaf 2]) none none
      (some true) none 0 none).1
      ⟨Int.natCast_nonneg _, fun m hm => absurd hm (by simp)⟩
  · refine (find_all_count_bounds (PTree.node [PTree.leaf 1, PTree.leaf 2]) none none
      (some true) none 10 none).2 (Or.inl ?_)
    norm_num [find_all_data, iter_children, iter_children_simple_eq, PTree.children, truthy]

end Sidekick
